import Mathlib

/-!
Verification of the template dependency and incremental-rebuild engine
(scripts/compile-ejs.js, vite.config.js, scripts/svg-sprite.js).

Shallow embedding conventions:
* Strings of the JS source are `String`/`List Char`; the comment scanner
  works on `List Char` so that the index-based JS loop becomes structural
  recursion.
* JS `Map<string, Set<string>>` values are association lists
  `List (String × List String)`; `Map.get` of an absent key (JS
  `undefined`) is read through `lookupEdges`, which returns the empty
  list, matching how the absent case behaves at every use site.
* JS `Set<string>` values are `List String` used up to membership;
  `Set.add` is `insertStr`.
* Filesystem existence (`existsSync`) is a parameter `fs : List String`
  listing the paths that exist; file contents are association lists from
  path to content.
* Node's `path` functions are modelled for well-formed slash-separated
  paths: `path.resolve` distinguishes absolute from relative references
  (no `..` normalisation, which the repository never relies on),
  `path.dirname` drops the last component, `path.extname` takes the
  suffix of the base name after its last dot.
-/

/-- Embedding of `stripEjsComments` (compile-ejs.js lines 24-61).
The JS function is an outer copy loop plus an inner comment-skipping
loop sharing one cursor; here the two loops are merged into a single
left-to-right scan whose first argument is the nesting depth
(`depth = 0` is the outer loop, `depth ≥ 1` the inner loop).  Arms in
the `depth ≥ 1` group mirror the JS priority order: the escape `<%%` is
skipped, `<%` increments depth, `%>` decrements depth (returning to the
outer loop at depth 0), any other character is dropped except a newline,
which is re-emitted to keep line numbers stable.  At depth 0 a `<%#`
enters a comment and every other character is copied through. -/
def scanStrip : Nat → List Char → List Char
  | _, [] => []
  | 0, '<' :: '%' :: '#' :: cs => scanStrip 1 cs
  | 0, c :: cs => c :: scanStrip 0 cs
  | d+1, '<' :: '%' :: '%' :: cs => scanStrip (d+1) cs
  | d+1, '<' :: '%' :: cs => scanStrip (d+2) cs
  | d+1, '%' :: '>' :: cs => scanStrip d cs
  | d+1, c :: cs => (if c = '\n' then ['\n'] else []) ++ scanStrip (d+1) cs

/-- `stripEjsComments` on a character list: the scan starts outside any
comment region. -/
def stripEjsComments (cs : List Char) : List Char := scanStrip 0 cs

/-- Decides whether a character list contains the comment-open marker
`<%#` at some position (used to characterise when a second strip can
differ from the first). -/
def hasCommentOpen : List Char → Bool
  | '<' :: '%' :: '#' :: _ => true
  | _ :: cs => hasCommentOpen cs
  | [] => false

/-- The project working directory (`process.cwd()`); an arbitrary fixed
absolute path. -/
def CWD : String := "/project"

/-- Node `path.isAbsolute` for POSIX-style paths. -/
def isAbsolutePath (p : String) : Bool :=
  match p.toList with
  | '/' :: _ => true
  | _ => false

/-- Node `path.resolve(d, p)` for an absolute base `d`: an absolute `p`
wins, an empty `p` yields `d`, otherwise `p` is joined onto `d`
(`..` segments are not modelled; the repository only resolves plain
relative references). -/
def pathResolveFrom (d p : String) : String :=
  if p = "" then d else if isAbsolutePath p then p else d ++ "/" ++ p

/-- Node `path.dirname`: everything before the last slash, `"."` when
there is no slash, `"/"` when the last slash is the leading one. -/
def dirname (p : String) : String :=
  match (p.toList.reverse.dropWhile (fun c => !(c = '/'))) with
  | [] => "."
  | ['/'] => "/"
  | _ :: rest => String.mk rest.reverse

/-- Node `path.extname`: the suffix of the base name starting at its
last dot, empty when the base name has no dot or starts with its only
dot. -/
def extname (p : String) : String :=
  let bn := p.toList.reverse.takeWhile (fun c => !(c = '/'))
  match bn.dropWhile (fun c => !(c = '.')) with
  | [] => ""
  | ['.'] => ""
  | '.' :: _ :: _ => String.mk ('.' :: (bn.takeWhile (fun c => !(c = '.'))).reverse)
  | _ => ""

/-- Embedding of `resolveInclude` (compile-ejs.js lines 115-124), with
the filesystem passed explicitly: resolve the reference against the
including file's directory; keep it as-is when it already has the
`.ejs` extension; otherwise prefer the `.ejs`-suffixed candidate when it
exists, fall back to the bare candidate when that exists, and default to
the suffixed form. -/
def resolveInclude (fs : List String) (fromFile includePath : String) : String :=
  let base := pathResolveFrom (dirname fromFile) includePath
  if extname base = ".ejs" then base
  else if (base ++ ".ejs") ∈ fs then base ++ ".ejs"
  else if base ∈ fs then base
  else base ++ ".ejs"

/-- The dependency graph produced by `buildDependencyGraph`
(compile-ejs.js lines 145-174): page set, partial set, forward include
map and reverse dependent map. -/
structure DependencyGraph where
  pages : List String
  partials : List String
  includes : List (String × List String)
  dependents : List (String × List String)
deriving DecidableEq

/-- Reading one key of a `Map<string, Set<string>>`: the stored set, or
the empty set when the key is absent. -/
def lookupEdges (m : List (String × List String)) (k : String) : List String :=
  (m.lookup k).getD []

/-- `dependents.get(t).add(src)` including the `if (!dependents.has(t))
dependents.set(t, new Set())` initialisation (compile-ejs.js lines
166-170, per included target). -/
def addDependent (m : List (String × List String)) (t src : String) :
    List (String × List String) :=
  match m with
  | [] => [(t, [src])]
  | (k, v) :: rest =>
    if k = t then (k, if src ∈ v then v else v ++ [src]) :: rest
    else (k, v) :: addDependent rest t src

/-- The inner `for (const t of incs)` loop of `buildDependencyGraph`:
record `file` as a dependent of every include target. -/
def recordDeps (file : String) (incs : List String)
    (m : List (String × List String)) : List (String × List String) :=
  incs.foldl (fun acc t => addDependent acc t file) m

/-- Embedding of `buildDependencyGraph` (compile-ejs.js lines 153-174).
`pages` and `partials` are the `walkDir` results for the two roots and
`scan` is the per-file include scanner (`scanIncludes`, which reads the
file, strips comments, extracts literal include references, resolves
them and keeps only the existing ones); the claims quantify over them.
The JS `Map.set(file, incs)` over the deduplicated universe writes one
entry per file in order, i.e. exactly `universe.map`; the reverse map
accumulates with `addDependent` in the same traversal order. -/
def buildDependencyGraph (pages partials : List String)
    (scan : String → List String) : DependencyGraph :=
  let univ := (pages ++ partials).dedup
  { pages := pages
    partials := partials
    includes := univ.map (fun f => (f, scan f))
    dependents := univ.foldl (fun m f => recordDeps f (scan f) m) [] }

/-- JS `Set.add`: keep the list duplicate-free. -/
def insertStr (a : String) (l : List String) : List String :=
  if a ∈ l then l else a :: l

/-- `if (graph.pages.has(x)) result.add(x)` (compile-ejs.js lines 202
and 209). -/
def pushPage (pages : List String) (x : String) (result : List String) : List String :=
  if x ∈ pages then insertStr x result else result

/-- The `for (const u of ups)` result updates of `getImpactedPages`. -/
def pushPages (pages : List String) (ups result : List String) : List String :=
  ups.foldl (fun r u => pushPage pages u r) result

/-- All strings occurring in some dependent set of the graph (used only
as the termination measure of the traversal: every path ever pushed is
either an initial stack entry or one of these). -/
def depValsAll (g : DependencyGraph) : List String :=
  (g.dependents.map Prod.snd).flatten

/-- The `while (stack.length)` worklist of `getImpactedPages`
(compile-ejs.js lines 196-214).  `stack` is held top-first (JS
`stack.pop()` is the head; pushes cons).  The guard mirrors
`if (!cur || seen.has(cur)) continue` — note that JS also skips a popped
empty string, because `''` is falsy.  An unseen path is recorded in
`seen`, added to the result when it is a page, its dependents are added
to the result when they are pages, and its unseen dependents are pushed. -/
def impactedLoop (g : DependencyGraph) (result seen stack : List String) : List String :=
  match stack with
  | [] => result
  | cur :: rest =>
    if cur = "" ∨ cur ∈ seen then impactedLoop g result seen rest
    else
      impactedLoop g
        (pushPages g.pages (lookupEdges g.dependents cur) (pushPage g.pages cur result))
        (cur :: seen)
        (((lookupEdges g.dependents cur).filter
            (fun u => decide (¬ u ∈ cur :: seen))).reverse ++ rest)
termination_by (((depValsAll g ++ stack).toFinset \ seen.toFinset).card, stack.length)
decreasing_by
  · have hsub : (depValsAll g ++ rest).toFinset \ seen.toFinset ⊆
        (depValsAll g ++ cur :: rest).toFinset \ seen.toFinset := by
      intro x hx
      simp only [List.toFinset_append, Finset.mem_sdiff, Finset.mem_union,
        List.mem_toFinset, List.mem_cons] at hx ⊢
      tauto
    rcases lt_or_eq_of_le (Finset.card_le_card hsub) with h | h
    · exact Prod.Lex.left _ _ h
    · rw [h]
      exact Prod.Lex.right _ (Nat.lt_succ_self _)
  · apply Prod.Lex.left
    have hlk : ∀ (m : List (String × List String)) (k : String),
        ∀ x ∈ lookupEdges m k, x ∈ (m.map Prod.snd).flatten := by
      intro m k
      induction m with
      | nil => intro x hx; simp [lookupEdges] at hx
      | cons e tl ih =>
        intro x hx
        obtain ⟨k', v⟩ := e
        by_cases hkk : k == k'
        · have hv : List.lookup k ((k', v) :: tl) = some v := by
            simp [List.lookup, hkk]
          rw [lookupEdges, hv] at hx
          simp only [Option.getD_some] at hx
          simp [hx]
        · have hv : List.lookup k ((k', v) :: tl) = List.lookup k tl := by
            simp [List.lookup, hkk]
          rw [lookupEdges, hv] at hx
          have hmem := ih x (by rw [lookupEdges]; exact hx)
          simp only [List.map_cons, List.flatten_cons, List.mem_append]
          exact Or.inr hmem
    have hsub : (depValsAll g ++ (((lookupEdges g.dependents cur).filter
            (fun u => decide (¬ u ∈ cur :: seen))).reverse ++ rest)).toFinset \
          (cur :: seen).toFinset ⊆
        (depValsAll g ++ cur :: rest).toFinset \ seen.toFinset := by
      intro x hx
      simp only [List.toFinset_append, Finset.mem_sdiff, Finset.mem_union,
        List.mem_toFinset, List.mem_append, List.mem_reverse,
        List.mem_filter, List.mem_cons, decide_eq_true_eq] at hx ⊢
      obtain ⟨hin, hnot⟩ := hx
      refine ⟨?_, fun hxs => hnot (Or.inr hxs)⟩
      rcases hin with h | h
      · exact Or.inl h
      · rcases h with h | h
        · exact Or.inl (hlk g.dependents cur x h.1)
        · exact Or.inr (Or.inr h)
    have hcur_in : cur ∈ (depValsAll g ++ cur :: rest).toFinset \ seen.toFinset := by
      simp only [List.toFinset_append, Finset.mem_sdiff, Finset.mem_union,
        List.mem_toFinset, List.mem_cons]
      exact ⟨by tauto, by tauto⟩
    have hcur_out : cur ∉
        (depValsAll g ++ (((lookupEdges g.dependents cur).filter
            (fun u => decide (¬ u ∈ cur :: seen))).reverse ++ rest)).toFinset \
          (cur :: seen).toFinset := by
      simp [Finset.mem_sdiff, List.mem_toFinset]
    exact Finset.card_lt_card
      ((Finset.ssubset_iff_of_subset hsub).2 ⟨cur, hcur_in, hcur_out⟩)

/-- Embedding of `getImpactedPages` (compile-ejs.js lines 182-217):
normalise the changed paths against the working directory, seed the
worklist (JS pushes in order and pops from the end, so the list-as-stack
is the reverse), and run the traversal with empty result and visited
sets. -/
def getImpactedPages (changedPaths : List String) (g : DependencyGraph) : List String :=
  impactedLoop g [] []
    ((changedPaths.map (fun p => pathResolveFrom CWD p)).reverse)

/-- One reverse edge of the graph, as the specification's "dependent"
relation: `u` directly includes `x`. -/
def depStep (g : DependencyGraph) (x u : String) : Prop :=
  u ∈ lookupEdges g.dependents x

/-- The specification's transitive-dependence notion: `y` is reachable
from some changed path in `S` by following reverse (dependent) edges
zero or more times. -/
def ReachesFrom (g : DependencyGraph) (S : List String) (y : String) : Prop :=
  ∃ c ∈ S, Relation.ReflTransGen (depStep g) c y

/-- Fuel-indexed rendering of the same worklist, used to state that the
traversal terminates: one unit of fuel is one iteration of the JS
`while` loop, and running out of fuel yields `none`. -/
def impactedLoopFuel (g : DependencyGraph) :
    Nat → List String → List String → List String → Option (List String)
  | 0, _, _, _ => none
  | _ + 1, result, _, [] => some result
  | fuel + 1, result, seen, cur :: rest =>
    if cur = "" ∨ cur ∈ seen then impactedLoopFuel g fuel result seen rest
    else
      impactedLoopFuel g fuel
        (pushPages g.pages (lookupEdges g.dependents cur) (pushPage g.pages cur result))
        (cur :: seen)
        (((lookupEdges g.dependents cur).filter
            (fun u => decide (¬ u ∈ cur :: seen))).reverse ++ rest)

/-- Example fixture: the page of the two-level include scenario
(document a includes fragment nav, nav includes fragment logo). -/
def examplePage : String := "/project/src/pages/a.ejs"

/-- Example fixture: the nav fragment. -/
def exampleNav : String := "/project/src/partials/nav.ejs"

/-- Example fixture: the logo fragment. -/
def exampleLogo : String := "/project/src/partials/logo.ejs"

/-- The dependency graph of the two-level scenario: a includes nav,
nav includes logo (as buildDependencyGraph would produce it). -/
def exampleGraph : DependencyGraph :=
  { pages := [examplePage]
    partials := [exampleNav, exampleLogo]
    includes := [(examplePage, [exampleNav]), (exampleNav, [exampleLogo]), (exampleLogo, [])]
    dependents := [(exampleLogo, [exampleNav]), (exampleNav, [examplePage])] }

/-- A graph with no files at all (e.g. before the roots exist). -/
def emptyDepGraph : DependencyGraph :=
  { pages := [], partials := [], includes := [], dependents := [] }

/-- A pathological graph whose dependent sets mention the empty string
as a node name (no real build produces it; used to exhibit the JS
falsy-skip of a popped empty string). -/
def emptyNodeGraph : DependencyGraph :=
  { pages := ["/p"], partials := [], includes := [],
    dependents := [("/c", [""]), ("", ["/p"])] }

/-- The debounce quiescence window of the change scheduler
(vite.config.js line 43). -/
def DEBOUNCE_MS : Nat := 25

/-- Scheduler state: the deduplicated pending change set and the armed
debounce timer (`none` = Idle, `some d` = Pending with deadline `d`).
In the JS source these are the closure variables `pending` and `timer`. -/
structure SchedulerState where
  pending : List String
  timer : Option Nat
deriving DecidableEq

/-- The scheduler's Idle state. -/
def idleScheduler : SchedulerState := { pending := [], timer := none }

/-- Embedding of `schedule` (vite.config.js lines 41-44): add the file
to the pending set; arm the timer for `now + DEBOUNCE_MS` only when no
timer is armed (`if (!timer) timer = setTimeout(..., 25)`), otherwise
leave the armed deadline untouched. -/
def schedule (s : SchedulerState) (now : Nat) (file : String) : SchedulerState :=
  { pending := insertStr file s.pending
    timer :=
      match s.timer with
      | none => some (now + DEBOUNCE_MS)
      | some d => some d }

/-- Feed a burst of timestamped notifications to the scheduler in
order. -/
def scheduleBurst (s : SchedulerState) (events : List (Nat × String)) : SchedulerState :=
  events.foldl (fun st e => schedule st e.1 e.2) s

/-- What a flush recompiles. -/
inductive RebuildAction where
  | compileAllPages : RebuildAction
  | compileEach : List String → RebuildAction
deriving DecidableEq

/-- The recompilation decision of `flush` (vite.config.js lines 29-37):
run the impact analysis on the pending set against the freshly rebuilt
graph; an empty impacted set falls back to `compileAll`, otherwise each
impacted page is compiled individually. -/
def flushRebuild (pending : List String) (g : DependencyGraph) : RebuildAction :=
  if getImpactedPages pending g = [] then RebuildAction.compileAllPages
  else RebuildAction.compileEach (getImpactedPages pending g)

/-- ASCII lower-casing of one character (`String.prototype.toLowerCase`
restricted to ASCII, which is all the sprite code applies it to:
file-name extensions). -/
def charLower (c : Char) : Char :=
  if 'A' ≤ c ∧ c ≤ 'Z' then Char.ofNat (c.toNat + 32) else c

/-- ASCII `toLowerCase` on strings. -/
def strLower (s : String) : String := String.mk (s.toList.map charLower)

/-- Boolean string order used to model JS array sorting (`.sort()` on
names, and the explicit `a.fileName < b.fileName ? -1 : ... : 0`
comparator, both of which order by the string comparison). -/
def strLe (a b : String) : Bool := decide (a ≤ b)

/-- `entry.isFile() && extname(entry.name).toLowerCase() === '.svg'`
(svg-sprite.js line 91), on the name. -/
def isSvgName (name : String) : Bool := strLower (extname name) == ".svg"

/-- The sorted `.svg` file-name list of `generateSvgSprite`
(svg-sprite.js lines 90-93): filter the directory entries and sort. -/
def svgFileNames (entries : List (String × String)) : List String :=
  ((entries.map Prod.fst).filter isSvgName).mergeSort strLe

/-- The `(fileName, symbol)` pairs collected by the parallel read loop
(svg-sprite.js lines 96-109), in file-name order.  `entries` maps each
directory entry name to its file contents; `toSym` is the per-file
transformation (`svgToSymbol` applied to `makeSymbolId`), kept as a
parameter because every claim about the sprite quantifies over file
contents, and `null` symbols (no `<svg>` tag) are dropped.  The actual
push order of the parallel loop is an arbitrary permutation of this
list, which is how the theorems quantify over completion order. -/
def symbolsOf (toSym : String → String → Option String)
    (entries : List (String × String)) : List (String × String) :=
  (svgFileNames entries).filterMap
    (fun n => (toSym n ((entries.lookup n).getD "")).map (fun s => (n, s)))

/-- `symbols.sort((a, b) => a.fileName < b.fileName ? -1 : ...)`
(svg-sprite.js line 112). -/
def sortSymbols (symbols : List (String × String)) : List (String × String) :=
  symbols.mergeSort (fun a b => strLe a.1 b.1)

/-- `Array.prototype.join(sep)`. -/
def joinSep (sep : String) : List String → String
  | [] => ""
  | [x] => x
  | x :: xs => x ++ sep ++ joinSep sep xs

/-- The final sprite string of `generateSvgSprite` (svg-sprite.js lines
111-119) as a function of the collected symbol list: sort by file name,
join with blank lines, and wrap in the fixed sprite markup. -/
def spriteOfSymbols (symbols : List (String × String)) : String :=
  "<svg class=\"svg_sprite\" aria-hidden=\"true\" focusable=\"false\" style=\"position:absolute;width:0;height:0;overflow:hidden\">"
    ++ (if symbols.isEmpty then "\n"
        else "\n" ++ joinSep "\n\n" ((sortSymbols symbols).map Prod.snd) ++ "\n\n")
    ++ "</svg>\n"

/-!
## Theorems
-/

theorem scanStrip_count_newline (d : Nat) (cs : List Char) :
    (scanStrip d cs).count '\n' = cs.count '\n' := by
  induction d, cs using scanStrip.induct <;>
    simp_all [scanStrip, List.count_cons]
  split <;> simp_all
  omega

theorem scanStrip_fixed (cs : List Char) (h : hasCommentOpen cs = false) :
    scanStrip 0 cs = cs := by
  induction cs with
  | nil => rfl
  | cons c tl ih =>
    rw [scanStrip.eq_def]
    split
    · rename_i heq
      exact absurd heq (List.cons_ne_nil _ _)
    · rename_i heq
      rw [heq] at h
      simp [hasCommentOpen] at h
    · rename_i c' tl' heq
      injection heq with h1 h2
      subst h1
      subst h2
      rw [hasCommentOpen.eq_def] at h
      split at h
      · simp at h
      · rename_i heq2
        injection heq2 with e1 e2
        subst e2
        exact congrArg (c :: ·) (ih h)
      · rename_i heq2
        exact absurd heq2 (List.cons_ne_nil _ _)
    · omega
    · omega
    · omega
    · omega

/-- C4: for every input, the output of stripEjsComments contains exactly
as many newline characters as the input, including inputs that end
inside an unterminated comment region. -/
theorem stripEjsComments_newline_count (cs : List Char) :
    (stripEjsComments cs).count '\n' = cs.count '\n' :=
  scanStrip_count_newline 0 cs

/-- C5 counterexample: stripping is not idempotent; stripping
"<%<%#%>#" yields "<%#" and stripping again yields "". -/
theorem stripEjsComments_not_idem :
    stripEjsComments (stripEjsComments ('<' :: '%' :: '<' :: '%' :: '#' :: '%' :: '>' :: '#' :: [])) ≠
      stripEjsComments ('<' :: '%' :: '<' :: '%' :: '#' :: '%' :: '>' :: '#' :: []) := by
  decide

/-- C5 amended: stripping is idempotent whenever the first strip's
output contains no comment-open marker. -/
theorem stripEjsComments_idem_of_no_open (cs : List Char)
    (h : hasCommentOpen (stripEjsComments cs) = false) :
    stripEjsComments (stripEjsComments cs) = stripEjsComments cs :=
  scanStrip_fixed _ h

theorem stripEjsComments_idem_witness :
    hasCommentOpen (stripEjsComments "a<%# x %>b".toList) = false ∧
      stripEjsComments (stripEjsComments "a<%# x %>b".toList) =
        stripEjsComments "a<%# x %>b".toList :=
  ⟨by decide, stripEjsComments_idem_of_no_open "a<%# x %>b".toList (by decide)⟩

/-- C8 counterexample: inside a comment region the escape "<%%" is not
copied to the output: stripping "<%#<%%%>x" yields "x" with no trace of
the escape, and at depth 1 the scanner's output on "<%%" is empty. -/
theorem scanStrip_escape_not_copied :
    stripEjsComments ('<' :: '%' :: '#' :: '<' :: '%' :: '%' :: '%' :: '>' :: 'x' :: []) = ['x'] ∧
      scanStrip 1 ('<' :: '%' :: '%' :: []) ≠ '<' :: '%' :: '%' :: [] := by
  decide

/-- C8 amended: at depth at least 1 the escaped delimiter is consumed
without emitting anything and without changing the nesting depth: the
scan continues on the rest at the same depth. -/
theorem scanStrip_escape_skip (d : Nat) (cs : List Char) (h : 0 < d) :
    scanStrip d ('<' :: '%' :: '%' :: cs) = scanStrip d cs := by
  cases d with
  | zero => omega
  | succ d => rfl

theorem scanStrip_escape_skip_witness :
    0 < 1 ∧ scanStrip 1 ('<' :: '%' :: '%' :: 'y' :: []) = scanStrip 1 ('y' :: []) :=
  ⟨by decide, scanStrip_escape_skip 1 ('y' :: []) (by decide)⟩

theorem lookup_cons_self {β : Type} (k : String) (v : β) (m : List (String × β)) :
    List.lookup k ((k, v) :: m) = some v := by simp [List.lookup]

theorem lookup_cons_ne {β : Type} (k k' : String) (v : β) (m : List (String × β))
    (hk : k ≠ k') : List.lookup k ((k', v) :: m) = List.lookup k m := by
  have hb : (k == k') = false := beq_eq_false_iff_ne.mpr hk
  simp [List.lookup, hb]

theorem lookup_map_scan (scan : String → List String) (us : List String) (A B : String) :
    B ∈ lookupEdges (us.map (fun f => (f, scan f))) A ↔ A ∈ us ∧ B ∈ scan A := by
  induction us with
  | nil => simp [lookupEdges]
  | cons f fs ih =>
    simp only [List.map_cons]
    by_cases hA : A = f
    · subst hA
      rw [lookupEdges, lookup_cons_self]
      simp
    · rw [lookupEdges, lookup_cons_ne _ _ _ _ hA, ← lookupEdges, ih]
      simp [hA]

theorem mem_lookupEdges_addDependent (m : List (String × List String)) (t src k x : String) :
    x ∈ lookupEdges (addDependent m t src) k ↔
      x ∈ lookupEdges m k ∨ (k = t ∧ x = src) := by
  induction m with
  | nil =>
    by_cases hk : k = t
    · subst hk
      rw [show addDependent [] k src = [(k, [src])] from rfl,
        lookupEdges, lookup_cons_self, lookupEdges]
      simp [List.lookup]
    · rw [show addDependent [] t src = [(t, [src])] from rfl,
        lookupEdges, lookup_cons_ne _ _ _ _ hk, lookupEdges]
      simp [List.lookup, hk]
  | cons e rest ih =>
    obtain ⟨k', v⟩ := e
    by_cases ht : k' = t
    · subst ht
      rw [show addDependent ((k', v) :: rest) k' src =
          (k', if src ∈ v then v else v ++ [src]) :: rest from by
        simp [addDependent]]
      by_cases hk : k = k'
      · subst hk
        rw [lookupEdges, lookup_cons_self, lookupEdges, lookup_cons_self]
        simp only [Option.getD_some]
        by_cases hs : src ∈ v
        · rw [if_pos hs]
          constructor
          · exact Or.inl
          · rintro (h | ⟨-, rfl⟩)
            · exact h
            · exact hs
        · rw [if_neg hs]
          simp [List.mem_append]
      · rw [lookupEdges, lookup_cons_ne _ _ _ _ hk, lookupEdges,
          lookup_cons_ne _ _ _ _ hk]
        simp [hk]
    · rw [show addDependent ((k', v) :: rest) t src =
          (k', v) :: addDependent rest t src from by simp [addDependent, ht]]
      by_cases hk : k = k'
      · subst hk
        rw [lookupEdges, lookup_cons_self, lookupEdges, lookup_cons_self]
        simp only [Option.getD_some]
        have hkt : ¬ k = t := fun h => ht h
        simp [hkt]
      · rw [lookupEdges, lookup_cons_ne _ _ _ _ hk, lookupEdges,
          lookup_cons_ne _ _ _ _ hk, ← lookupEdges, ← lookupEdges, ih]

theorem mem_lookupEdges_recordDeps (f : String) (incs : List String)
    (m : List (String × List String)) (k x : String) :
    x ∈ lookupEdges (recordDeps f incs m) k ↔
      x ∈ lookupEdges m k ∨ (k ∈ incs ∧ x = f) := by
  induction incs generalizing m with
  | nil => simp [recordDeps]
  | cons t ts ih =>
    rw [show recordDeps f (t :: ts) m = recordDeps f ts (addDependent m t f) from by
      simp [recordDeps]]
    rw [ih, mem_lookupEdges_addDependent]
    simp only [List.mem_cons]
    tauto

theorem mem_lookupEdges_buildFold (scan : String → List String) (us : List String)
    (m : List (String × List String)) (k x : String) :
    x ∈ lookupEdges (us.foldl (fun acc f => recordDeps f (scan f) acc) m) k ↔
      x ∈ lookupEdges m k ∨ ∃ f ∈ us, x = f ∧ k ∈ scan f := by
  induction us generalizing m with
  | nil => simp
  | cons f fs ih =>
    simp only [List.foldl_cons]
    rw [ih, mem_lookupEdges_recordDeps]
    simp only [List.mem_cons]
    constructor
    · rintro ((h | ⟨hk, rfl⟩) | ⟨f', hf', rfl, hk⟩)
      · exact Or.inl h
      · exact Or.inr ⟨x, Or.inl rfl, rfl, hk⟩
      · exact Or.inr ⟨x, Or.inr hf', rfl, hk⟩
    · rintro (h | ⟨f2, (rfl | hf'), rfl, hk⟩)
      · exact Or.inl (Or.inl h)
      · exact Or.inl (Or.inr ⟨hk, rfl⟩)
      · exact Or.inr ⟨x, hf', rfl, hk⟩

/-- C1: in every graph returned by buildDependencyGraph the forward and
reverse maps are exact transposes: B is in the include set assigned to A
iff A is in the dependent set assigned to B (an absent key carries the
empty set, as in the JS maps). -/
theorem buildDependencyGraph_transpose (pages partials : List String)
    (scan : String → List String) (A B : String) :
    B ∈ lookupEdges (buildDependencyGraph pages partials scan).includes A ↔
      A ∈ lookupEdges (buildDependencyGraph pages partials scan).dependents B := by
  simp only [buildDependencyGraph]
  rw [lookup_map_scan, mem_lookupEdges_buildFold]
  simp only [lookupEdges, List.lookup, Option.getD_none, List.not_mem_nil, false_or]
  constructor
  · rintro ⟨hA, hB⟩
    exact ⟨A, hA, rfl, hB⟩
  · rintro ⟨f, hf, rfl, hk⟩
    exact ⟨hf, hk⟩

theorem impactedLoopFuel_sound (g : DependencyGraph) (fuel : Nat) :
    ∀ (result seen stack r : List String),
      impactedLoopFuel g fuel result seen stack = some r →
      impactedLoop g result seen stack = r := by
  induction fuel with
  | zero => intro result seen stack r h; simp [impactedLoopFuel] at h
  | succ fuel ih =>
    intro result seen stack r h
    match stack with
    | [] =>
      simp [impactedLoopFuel] at h
      rw [impactedLoop, h]
    | cur :: rest =>
      rw [impactedLoop]
      by_cases hc : cur = "" ∨ cur ∈ seen
      · rw [if_pos hc]
        rw [show impactedLoopFuel g (fuel + 1) result seen (cur :: rest) =
            impactedLoopFuel g fuel result seen rest from by
          simp [impactedLoopFuel, hc]] at h
        exact ih _ _ _ _ h
      · rw [if_neg hc]
        rw [show impactedLoopFuel g (fuel + 1) result seen (cur :: rest) =
            impactedLoopFuel g fuel
              (pushPages g.pages (lookupEdges g.dependents cur) (pushPage g.pages cur result))
              (cur :: seen)
              (((lookupEdges g.dependents cur).filter
                  (fun u => decide (¬ u ∈ cur :: seen))).reverse ++ rest) from by
          simp [impactedLoopFuel, hc]] at h
        exact ih _ _ _ _ h

theorem impactedLoop_fuel_exists (g : DependencyGraph)
    (result seen stack : List String) :
    ∃ fuel, impactedLoopFuel g fuel result seen stack =
      some (impactedLoop g result seen stack) := by
  induction result, seen, stack using impactedLoop.induct g with
  | case1 result seen =>
    exact ⟨1, by simp [impactedLoopFuel, impactedLoop]⟩
  | case2 result seen cur rest hc ih =>
    obtain ⟨fuel, hf⟩ := ih
    refine ⟨fuel + 1, ?_⟩
    rw [show impactedLoopFuel g (fuel + 1) result seen (cur :: rest) =
        impactedLoopFuel g fuel result seen rest from by simp [impactedLoopFuel, hc]]
    rw [hf]
    rw [impactedLoop, if_pos hc]
  | case3 result seen cur rest hc ih =>
    obtain ⟨fuel, hf⟩ := ih
    refine ⟨fuel + 1, ?_⟩
    rw [show impactedLoopFuel g (fuel + 1) result seen (cur :: rest) =
        impactedLoopFuel g fuel
          (pushPages g.pages (lookupEdges g.dependents cur) (pushPage g.pages cur result))
          (cur :: seen)
          (((lookupEdges g.dependents cur).filter
              (fun u => decide (¬ u ∈ cur :: seen))).reverse ++ rest) from by
      simp [impactedLoopFuel, hc]]
    rw [hf]
    rw [impactedLoop, if_neg hc]

/-- C6: the reverse traversal of getImpactedPages terminates on every
finite graph (cyclic ones included): some finite amount of loop fuel
makes the fuel-metered rendering of the JS while-loop finish with
exactly the value computed by getImpactedPages. -/
theorem getImpactedPages_terminates (g : DependencyGraph) (changedPaths : List String) :
    ∃ fuel, impactedLoopFuel g fuel [] []
        ((changedPaths.map (fun p => pathResolveFrom CWD p)).reverse) =
      some (getImpactedPages changedPaths g) := by
  rw [getImpactedPages]
  exact impactedLoop_fuel_exists g [] [] _

theorem lookup_mem {β : Type} (k : String) (v : β) (m : List (String × β))
    (h : List.lookup k m = some v) : (k, v) ∈ m := by
  induction m with
  | nil => simp [List.lookup] at h
  | cons e rest ih =>
    obtain ⟨k', v'⟩ := e
    by_cases hk : k = k'
    · subst hk
      rw [lookup_cons_self] at h
      injection h with h
      simp [h]
    · rw [lookup_cons_ne _ _ _ _ hk] at h
      simp [ih h]

theorem lookupEdges_val_mem (m : List (String × List String)) (k x : String)
    (h : x ∈ lookupEdges m k) : ∃ e ∈ m, x ∈ e.2 := by
  rw [lookupEdges] at h
  cases hl : List.lookup k m with
  | none => rw [hl] at h; simp at h
  | some v =>
    rw [hl] at h
    simp only [Option.getD_some] at h
    exact ⟨(k, v), lookup_mem k v m hl, h⟩

theorem mem_insertStr (a x : String) (l : List String) :
    x ∈ insertStr a l ↔ x = a ∨ x ∈ l := by
  rw [insertStr]
  by_cases h : a ∈ l
  · rw [if_pos h]
    constructor
    · exact Or.inr
    · rintro (rfl | hx)
      · exact h
      · exact hx
  · rw [if_neg h]
    simp

theorem mem_pushPage (pages : List String) (c x : String) (result : List String) :
    x ∈ pushPage pages c result ↔ x ∈ result ∨ (x = c ∧ c ∈ pages) := by
  rw [pushPage]
  by_cases h : c ∈ pages
  · rw [if_pos h, mem_insertStr]
    tauto
  · rw [if_neg h]
    tauto

theorem mem_pushPages (pages ups : List String) :
    ∀ (result : List String) (x : String),
      x ∈ pushPages pages ups result ↔ x ∈ result ∨ (x ∈ ups ∧ x ∈ pages) := by
  induction ups with
  | nil => simp [pushPages]
  | cons u us ih =>
    intro result x
    rw [show pushPages pages (u :: us) result =
        pushPages pages us (pushPage pages u result) from by simp [pushPages]]
    rw [ih, mem_pushPage]
    simp only [List.mem_cons]
    constructor
    · rintro ((h | ⟨rfl, hp⟩) | ⟨hu, hp⟩)
      · exact Or.inl h
      · exact Or.inr ⟨Or.inl rfl, hp⟩
      · exact Or.inr ⟨Or.inr hu, hp⟩
    · rintro (h | ⟨(rfl | hu), hp⟩)
      · exact Or.inl (Or.inl h)
      · exact Or.inl (Or.inr ⟨rfl, hp⟩)
      · exact Or.inr ⟨hu, hp⟩

theorem impactedLoop_mem_iff (g : DependencyGraph) (S : List String)
    (hdep : ∀ e ∈ g.dependents, ∀ v ∈ e.2, v ≠ "")
    (hS : ∀ s ∈ S, s ≠ "") :
    ∀ (result seen stack : List String),
      (∀ x ∈ stack, ReachesFrom g S x) →
      (∀ x ∈ seen, ReachesFrom g S x) →
      (∀ x ∈ result, x ∈ g.pages ∧ ReachesFrom g S x) →
      (∀ s ∈ S, s ∈ seen ∨ s ∈ stack) →
      (∀ x ∈ seen, ∀ u ∈ lookupEdges g.dependents x,
        (u ∈ seen ∨ u ∈ stack) ∧ (u ∈ g.pages → u ∈ result)) →
      (∀ x ∈ seen, x ∈ g.pages → x ∈ result) →
      ∀ p, p ∈ impactedLoop g result seen stack ↔
        p ∈ g.pages ∧ ReachesFrom g S p := by
  intro result seen stack
  induction result, seen, stack using impactedLoop.induct g with
  | case1 result seen =>
    intro h1 h2 h3 h4 h5 h6 p
    rw [impactedLoop]
    constructor
    · intro hp
      exact h3 p hp
    · rintro ⟨hpg, hrf⟩
      obtain ⟨c, hcS, hrtg⟩ := hrf
      have hseen : ∀ y, Relation.ReflTransGen (depStep g) c y → y ∈ seen := by
        intro y hy
        induction hy with
        | refl =>
          rcases h4 c hcS with h | h
          · exact h
          · simp at h
        | tail hab hbc ihy =>
          rcases (h5 _ ihy _ hbc).1 with h | h
          · exact h
          · simp at h
      exact h6 p (hseen p hrtg) hpg
  | case2 result seen cur rest hc ih =>
    intro h1 h2 h3 h4 h5 h6 p
    rw [impactedLoop, if_pos hc]
    apply ih
    · exact fun x hx => h1 x (List.mem_cons_of_mem _ hx)
    · exact h2
    · exact h3
    · intro s hs
      rcases h4 s hs with h | h
      · exact Or.inl h
      · rcases List.mem_cons.mp h with rfl | h
        · rcases hc with hce | hcs
          · exact absurd hce (hS s hs)
          · exact Or.inl hcs
        · exact Or.inr h
    · intro x hx u hu
      refine ⟨?_, (h5 x hx u hu).2⟩
      rcases (h5 x hx u hu).1 with h | h
      · exact Or.inl h
      · rcases List.mem_cons.mp h with rfl | h
        · rcases hc with hce | hcs
          · obtain ⟨e, he, hv⟩ := lookupEdges_val_mem _ _ _ hu
            exact absurd hce (hdep e he u hv)
          · exact Or.inl hcs
        · exact Or.inr h
    · exact h6
  | case3 result seen cur rest hc ih =>
    intro h1 h2 h3 h4 h5 h6 p
    rw [impactedLoop, if_neg hc]
    have hcur_reach : ReachesFrom g S cur := h1 cur (List.mem_cons_self _ _)
    have hups_reach : ∀ u ∈ lookupEdges g.dependents cur, ReachesFrom g S u := by
      intro u hu
      obtain ⟨c, hcS, hrtg⟩ := hcur_reach
      exact ⟨c, hcS, Relation.ReflTransGen.tail hrtg hu⟩
    apply ih
    · intro x hx
      rcases List.mem_append.mp hx with h | h
      · exact hups_reach x (List.mem_filter.mp (List.mem_reverse.mp h)).1
      · exact h1 x (List.mem_cons_of_mem _ h)
    · intro x hx
      rcases List.mem_cons.mp hx with rfl | h
      · exact hcur_reach
      · exact h2 x h
    · intro x hx
      rcases (mem_pushPages _ _ _ _).mp hx with h | ⟨hu, hp⟩
      · rcases (mem_pushPage _ _ _ _).mp h with h | ⟨rfl, hp⟩
        · exact h3 x h
        · exact ⟨hp, hcur_reach⟩
      · exact ⟨hp, hups_reach x hu⟩
    · intro s hs
      rcases h4 s hs with h | h
      · exact Or.inl (List.mem_cons_of_mem _ h)
      · rcases List.mem_cons.mp h with rfl | h
        · exact Or.inl (List.mem_cons_self _ _)
        · exact Or.inr (List.mem_append_right _ h)
    · intro x hx u hu
      rcases List.mem_cons.mp hx with rfl | hxs
      · constructor
        · by_cases hus : u ∈ x :: seen
          · exact Or.inl hus
          · refine Or.inr (List.mem_append_left _ ?_)
            rw [List.mem_reverse, List.mem_filter]
            exact ⟨hu, by simpa using hus⟩
        · intro hup
          exact (mem_pushPages _ _ _ _).mpr (Or.inr ⟨hu, hup⟩)
      · constructor
        · rcases (h5 x hxs u hu).1 with h | h
          · exact Or.inl (List.mem_cons_of_mem _ h)
          · rcases List.mem_cons.mp h with rfl | h
            · exact Or.inl (List.mem_cons_self _ _)
            · exact Or.inr (List.mem_append_right _ h)
        · intro hup
          exact (mem_pushPages _ _ _ _).mpr
            (Or.inl ((mem_pushPage _ _ _ _).mpr (Or.inl ((h5 x hxs u hu).2 hup))))
    · intro x hx hxp
      rcases List.mem_cons.mp hx with rfl | hxs
      · exact (mem_pushPages _ _ _ _).mpr
          (Or.inl ((mem_pushPage _ _ _ _).mpr (Or.inr ⟨rfl, hxp⟩)))
      · exact (mem_pushPages _ _ _ _).mpr
          (Or.inl ((mem_pushPage _ _ _ _).mpr (Or.inl (h6 x hxs hxp))))

theorem pathResolveFrom_CWD_ne_empty (p : String) : pathResolveFrom CWD p ≠ "" := by
  by_cases h0 : p = ""
  · rw [pathResolveFrom, if_pos h0]
    decide
  · by_cases ha : isAbsolutePath p
    · rw [pathResolveFrom, if_neg h0, if_pos ha]
      exact h0
    · rw [pathResolveFrom, if_neg h0, if_neg ha]
      intro hcontra
      have h2 : (CWD ++ "/" ++ p).data = ("" : String).data := congrArg String.data hcontra
      rw [String.data_append] at h2
      exact absurd (List.append_eq_nil.mp h2).1 (by decide)

/-- C2 (amended): for every changed set and every graph whose dependent
sets do not contain the empty string (true of all graphs built by
buildDependencyGraph, whose node names are real paths), getImpactedPages
returns exactly the pages reachable from a normalised changed path by
following reverse (dependent) edges transitively, a changed page itself
included; and in the concrete two-level scenario (a includes nav, nav
includes logo), changing logo alone yields exactly the page a. -/
theorem getImpactedPages_reachability (changedPaths : List String) (g : DependencyGraph)
    (hdep : ∀ e ∈ g.dependents, ∀ v ∈ e.2, v ≠ "") :
    (∀ p, p ∈ getImpactedPages changedPaths g ↔
      p ∈ g.pages ∧
        ReachesFrom g (changedPaths.map (fun q => pathResolveFrom CWD q)) p) ∧
    getImpactedPages ["src/partials/logo.ejs"] exampleGraph = [examplePage] := by
  constructor
  · intro p
    rw [getImpactedPages]
    apply impactedLoop_mem_iff g _ hdep
      (fun s hs => by
        obtain ⟨q, _, rfl⟩ := List.mem_map.mp hs
        exact pathResolveFrom_CWD_ne_empty q)
    · intro x hx
      exact ⟨x, List.mem_reverse.mp hx, Relation.ReflTransGen.refl⟩
    · intro x hx
      exact absurd hx (List.not_mem_nil x)
    · intro x hx
      exact absurd hx (List.not_mem_nil x)
    · intro s hs
      exact Or.inr (List.mem_reverse.mpr hs)
    · intro x hx
      exact absurd hx (List.not_mem_nil x)
    · intro x hx
      exact absurd hx (List.not_mem_nil x)
  · rw [getImpactedPages]
    exact impactedLoopFuel_sound exampleGraph 10 _ _ _ _ (by decide)

theorem getImpactedPages_reachability_witness :
    (∀ e ∈ exampleGraph.dependents, ∀ v ∈ e.2, v ≠ "") ∧
      (examplePage ∈ getImpactedPages ["src/partials/logo.ejs"] exampleGraph ↔
        examplePage ∈ exampleGraph.pages ∧
          ReachesFrom exampleGraph
            (["src/partials/logo.ejs"].map (fun q => pathResolveFrom CWD q))
            examplePage) :=
  ⟨by decide,
    (getImpactedPages_reachability ["src/partials/logo.ejs"] exampleGraph (by decide)).1
      examplePage⟩

/-- C2 counterexample to the unrestricted claim: in a graph whose
dependent sets name the empty string, the page "/p" is reachable from
the changed path "/c" through the node "", but the traversal misses it,
because the JS guard (!cur) skips a popped empty string. -/
theorem getImpactedPages_empty_node_counterexample :
    ("/p" ∈ emptyNodeGraph.pages ∧
      ReachesFrom emptyNodeGraph (["/c"].map (fun q => pathResolveFrom CWD q)) "/p") ∧
      "/p" ∉ getImpactedPages ["/c"] emptyNodeGraph := by
  refine ⟨⟨by decide, ⟨"/c", by decide, ?_⟩⟩, ?_⟩
  · have s1 : Relation.ReflTransGen (depStep emptyNodeGraph) "/c" "" :=
      Relation.ReflTransGen.single
        (show "" ∈ lookupEdges emptyNodeGraph.dependents "/c" from by decide)
    exact s1.tail
      (show "/p" ∈ lookupEdges emptyNodeGraph.dependents "" from by decide)
  · have heval : getImpactedPages ["/c"] emptyNodeGraph = [] := by
      rw [getImpactedPages]
      exact impactedLoopFuel_sound emptyNodeGraph 10 _ _ _ _ (by decide)
    rw [heval]
    exact List.not_mem_nil _

/-- C3: in a flush, an empty impacted set for the pending changes falls
back to recompiling every document (compileAll), and a non-empty
impacted set recompiles exactly the impacted documents individually. -/
theorem flushRebuild_spec (pending : List String) (g : DependencyGraph) :
    (getImpactedPages pending g = [] →
      flushRebuild pending g = RebuildAction.compileAllPages) ∧
    (getImpactedPages pending g ≠ [] →
      flushRebuild pending g = RebuildAction.compileEach (getImpactedPages pending g)) := by
  constructor
  · intro h
    rw [flushRebuild, if_pos h]
  · intro h
    rw [flushRebuild, if_neg h]

theorem flushRebuild_spec_witness :
    flushRebuild ["x.ejs"] emptyDepGraph = RebuildAction.compileAllPages ∧
      flushRebuild ["src/partials/logo.ejs"] exampleGraph =
        RebuildAction.compileEach (getImpactedPages ["src/partials/logo.ejs"] exampleGraph) := by
  constructor
  · apply (flushRebuild_spec ["x.ejs"] emptyDepGraph).1
    rw [getImpactedPages]
    exact impactedLoopFuel_sound emptyDepGraph 5 _ _ _ _ (by decide)
  · apply (flushRebuild_spec ["src/partials/logo.ejs"] exampleGraph).2
    have heval : getImpactedPages ["src/partials/logo.ejs"] exampleGraph = [examplePage] := by
      rw [getImpactedPages]
      exact impactedLoopFuel_sound exampleGraph 10 _ _ _ _ (by decide)
    rw [heval]
    simp

theorem scheduleBurst_timer (events : List (Nat × String)) :
    ∀ (s : SchedulerState) (d : Nat), s.timer = some d →
      (scheduleBurst s events).timer = some d := by
  induction events with
  | nil =>
    intro s d h
    exact h
  | cons e es ih =>
    intro s d h
    rw [show scheduleBurst s (e :: es) = scheduleBurst (schedule s e.1 e.2) es from by
      simp [scheduleBurst]]
    apply ih
    rw [schedule]
    simp [h]

theorem scheduleBurst_pending (events : List (Nat × String)) :
    ∀ (s : SchedulerState) (f : String),
      f ∈ (scheduleBurst s events).pending ↔
        f ∈ s.pending ∨ ∃ e ∈ events, e.2 = f := by
  induction events with
  | nil => simp [scheduleBurst]
  | cons e es ih =>
    intro s f
    rw [show scheduleBurst s (e :: es) = scheduleBurst (schedule s e.1 e.2) es from by
      simp [scheduleBurst]]
    rw [ih]
    rw [show (schedule s e.1 e.2).pending = insertStr e.2 s.pending from rfl]
    rw [mem_insertStr]
    simp only [List.mem_cons]
    constructor
    · rintro ((rfl | h) | ⟨e2, he2, rfl⟩)
      · exact Or.inr ⟨e, Or.inl rfl, rfl⟩
      · exact Or.inl h
      · exact Or.inr ⟨e2, Or.inr he2, rfl⟩
    · rintro (h | ⟨e2, (rfl | he2), rfl⟩)
      · exact Or.inl (Or.inr h)
      · exact Or.inl (Or.inl rfl)
      · exact Or.inr ⟨e2, he2, rfl⟩

/-- C9: from Idle, the first notification arms the debounce timer with
deadline t0 + DEBOUNCE_MS; any burst of further notifications only adds
paths to the pending set and leaves the armed deadline untouched (no
re-arming, no extension), so the window fires exactly once, with the
pending set holding exactly the burst's paths. -/
theorem schedule_burst_single_arm (t0 : Nat) (f0 : String) (rest : List (Nat × String)) :
    (schedule idleScheduler t0 f0).timer = some (t0 + DEBOUNCE_MS) ∧
    (scheduleBurst (schedule idleScheduler t0 f0) rest).timer = some (t0 + DEBOUNCE_MS) ∧
    (∀ f, f ∈ (scheduleBurst (schedule idleScheduler t0 f0) rest).pending ↔
      f = f0 ∨ ∃ e ∈ rest, e.2 = f) := by
  refine ⟨rfl, scheduleBurst_timer rest _ _ rfl, ?_⟩
  intro f
  rw [scheduleBurst_pending]
  rw [show (schedule idleScheduler t0 f0).pending = insertStr f0 [] from rfl,
    mem_insertStr]
  simp

/-- C7: resolveInclude resolves the reference against the including
file's directory, never raises (it is total), and applies exactly this
cascade: keep the resolved path as-is when it already carries the .ejs
extension; otherwise take the .ejs-appended candidate when it exists on
disk, else the bare resolved path when that exists, else the .ejs
appended form as the default. -/
theorem resolveInclude_spec (fs : List String) (fromFile includePath : String) :
    (extname (pathResolveFrom (dirname fromFile) includePath) = ".ejs" →
      resolveInclude fs fromFile includePath =
        pathResolveFrom (dirname fromFile) includePath) ∧
    (extname (pathResolveFrom (dirname fromFile) includePath) ≠ ".ejs" →
      pathResolveFrom (dirname fromFile) includePath ++ ".ejs" ∈ fs →
      resolveInclude fs fromFile includePath =
        pathResolveFrom (dirname fromFile) includePath ++ ".ejs") ∧
    (extname (pathResolveFrom (dirname fromFile) includePath) ≠ ".ejs" →
      pathResolveFrom (dirname fromFile) includePath ++ ".ejs" ∉ fs →
      pathResolveFrom (dirname fromFile) includePath ∈ fs →
      resolveInclude fs fromFile includePath =
        pathResolveFrom (dirname fromFile) includePath) ∧
    (extname (pathResolveFrom (dirname fromFile) includePath) ≠ ".ejs" →
      pathResolveFrom (dirname fromFile) includePath ++ ".ejs" ∉ fs →
      pathResolveFrom (dirname fromFile) includePath ∉ fs →
      resolveInclude fs fromFile includePath =
        pathResolveFrom (dirname fromFile) includePath ++ ".ejs") := by
  refine ⟨?_, ?_, ?_, ?_⟩
  · intro h1
    simp [resolveInclude, h1]
  · intro h1 h2
    simp [resolveInclude, h1, h2]
  · intro h1 h2 h3
    simp [resolveInclude, h1, h2, h3]
  · intro h1 h2 h3
    simp [resolveInclude, h1, h2, h3]

theorem resolveInclude_spec_witness :
    resolveInclude [] "/a/page.ejs" "nav.ejs" = "/a/nav.ejs" ∧
    resolveInclude ["/a/nav.ejs"] "/a/page.ejs" "nav" = "/a/nav.ejs" ∧
    resolveInclude ["/a/nav"] "/a/page.ejs" "nav" = "/a/nav" ∧
    resolveInclude [] "/a/page.ejs" "nav" = "/a/nav.ejs" :=
  ⟨((resolveInclude_spec [] "/a/page.ejs" "nav.ejs").1 (by decide)).trans (by decide),
   ((resolveInclude_spec ["/a/nav.ejs"] "/a/page.ejs" "nav").2.1
      (by decide) (by decide)).trans (by decide),
   ((resolveInclude_spec ["/a/nav"] "/a/page.ejs" "nav").2.2.1
      (by decide) (by decide) (by decide)).trans (by decide),
   ((resolveInclude_spec [] "/a/page.ejs" "nav").2.2.2
      (by decide) (by decide) (by decide)).trans (by decide)⟩

theorem strLe_trans (a b c : String) (h1 : strLe a b = true) (h2 : strLe b c = true) :
    strLe a c = true := by
  rw [strLe, decide_eq_true_eq] at h1 h2 ⊢
  exact le_trans h1 h2

theorem strLe_total (a b : String) : (strLe a b || strLe b a) = true := by
  rw [strLe, strLe]
  rcases le_total a b with h | h
  · simp [h]
  · simp [h]

theorem strLe_antisymm (a b : String) (h1 : strLe a b = true) (h2 : strLe b a = true) :
    a = b := by
  rw [strLe, decide_eq_true_eq] at h1 h2
  exact le_antisymm h1 h2

theorem sorted_perm_eq_strings (l₁ l₂ : List String)
    (hperm : l₁.Perm l₂)
    (hs₁ : List.Pairwise (fun a b => strLe a b = true) l₁)
    (hs₂ : List.Pairwise (fun a b => strLe a b = true) l₂) : l₁ = l₂ := by
  haveI : IsAntisymm String (fun a b => strLe a b = true) :=
    ⟨fun a b h1 h2 => strLe_antisymm a b h1 h2⟩
  exact List.eq_of_perm_of_sorted hperm hs₁ hs₂

theorem svgFileNames_perm_eq (entries₁ entries₂ : List (String × String))
    (hperm : entries₁.Perm entries₂) :
    svgFileNames entries₁ = svgFileNames entries₂ := by
  rw [svgFileNames, svgFileNames]
  apply sorted_perm_eq_strings
  · exact (List.mergeSort_perm _ _).trans
      (((hperm.map Prod.fst).filter isSvgName).trans (List.mergeSort_perm _ _).symm)
  · exact List.sorted_mergeSort (fun a b c => strLe_trans a b c) strLe_total _
  · exact List.sorted_mergeSort (fun a b c => strLe_trans a b c) strLe_total _

theorem lookup_perm_eq {β : Type} (l₁ l₂ : List (String × β)) (hperm : l₁.Perm l₂) :
    (l₁.map Prod.fst).Nodup → ∀ k, List.lookup k l₁ = List.lookup k l₂ := by
  induction hperm with
  | nil => intro _ k; rfl
  | cons x hp ih =>
    intro hnd k
    obtain ⟨xk, xv⟩ := x
    by_cases hk : k = xk
    · subst hk
      rw [lookup_cons_self, lookup_cons_self]
    · rw [lookup_cons_ne _ _ _ _ hk, lookup_cons_ne _ _ _ _ hk]
      exact ih (by simpa using (List.nodup_cons.mp (by simpa using hnd)).2) k
  | swap x y l =>
    intro hnd k
    obtain ⟨xk, xv⟩ := x
    obtain ⟨yk, yv⟩ := y
    have hxy : yk ≠ xk := by
      simp only [List.map_cons, List.nodup_cons, List.mem_cons, List.mem_map] at hnd
      exact fun h => hnd.1 (Or.inl h)
    by_cases hkx : k = xk
    · subst hkx
      rw [lookup_cons_ne _ _ _ _ (fun h => hxy h.symm), lookup_cons_self,
        lookup_cons_self]
    · by_cases hky : k = yk
      · subst hky
        rw [lookup_cons_self, lookup_cons_ne _ _ _ _ hkx, lookup_cons_self]
      · rw [lookup_cons_ne _ _ _ _ hky, lookup_cons_ne _ _ _ _ hkx,
          lookup_cons_ne _ _ _ _ hkx, lookup_cons_ne _ _ _ _ hky]
  | trans h12 h23 ih12 ih23 =>
    intro hnd k
    rw [ih12 hnd k, ih23 ((h12.map Prod.fst).nodup_iff.mp hnd) k]

theorem symbolsOf_perm_eq (toSym : String → String → Option String)
    (entries₁ entries₂ : List (String × String))
    (hperm : entries₁.Perm entries₂) (hnd : (entries₁.map Prod.fst).Nodup) :
    symbolsOf toSym entries₁ = symbolsOf toSym entries₂ := by
  rw [symbolsOf, symbolsOf, svgFileNames_perm_eq entries₁ entries₂ hperm]
  exact List.filterMap_congr
    (fun n _ => by rw [lookup_perm_eq entries₁ entries₂ hperm hnd n])

theorem symbolsOf_keys_sublist (toSym : String → String → Option String)
    (entries : List (String × String)) :
    ((symbolsOf toSym entries).map Prod.fst).Sublist (svgFileNames entries) := by
  rw [symbolsOf]
  induction svgFileNames entries with
  | nil => simp
  | cons n ns ih =>
    rw [List.filterMap_cons]
    cases h : toSym n ((entries.lookup n).getD "") with
    | none => exact ih.trans (List.sublist_cons_self n ns)
    | some s =>
      simp only [Option.map_some', List.map_cons]
      exact ih.cons₂ n

theorem svgFileNames_nodup (entries : List (String × String))
    (hnd : (entries.map Prod.fst).Nodup) : (svgFileNames entries).Nodup := by
  rw [svgFileNames]
  exact ((List.mergeSort_perm _ _).nodup_iff).mpr (hnd.filter _)

theorem sorted_perm_eq_symbols (l₁ l₂ : List (String × String))
    (hperm : l₁.Perm l₂) (hnd : (l₁.map Prod.fst).Nodup)
    (hs₁ : List.Pairwise (fun a b : String × String => strLe a.1 b.1 = true) l₁)
    (hs₂ : List.Pairwise (fun a b : String × String => strLe a.1 b.1 = true) l₂) :
    l₁ = l₂ := by
  haveI : IsAntisymm (String × String)
      (fun a b : String × String => strLe a.1 b.1 = true ∧ a.1 ≠ b.1) :=
    ⟨fun a b h1 h2 => absurd (strLe_antisymm _ _ h1.1 h2.1) h1.2⟩
  have hnd₂ : (l₂.map Prod.fst).Nodup := (hperm.map Prod.fst).nodup_iff.mp hnd
  have hne₁ : List.Pairwise (fun a b : String × String => a.1 ≠ b.1) l₁ :=
    List.pairwise_map.mp hnd
  have hne₂ : List.Pairwise (fun a b : String × String => a.1 ≠ b.1) l₂ :=
    List.pairwise_map.mp hnd₂
  exact List.eq_of_perm_of_sorted hperm (hs₁.and hne₁) (hs₂.and hne₂)

theorem sortSymbols_perm_eq (l₁ l₂ : List (String × String))
    (hperm : l₁.Perm l₂) (hnd : (l₁.map Prod.fst).Nodup) :
    sortSymbols l₁ = sortSymbols l₂ := by
  rw [sortSymbols, sortSymbols]
  apply sorted_perm_eq_symbols
  · exact (List.mergeSort_perm _ _).trans (hperm.trans (List.mergeSort_perm _ _).symm)
  · exact ((List.mergeSort_perm l₁ _).map Prod.fst).nodup_iff.mpr hnd
  · exact List.sorted_mergeSort
      (fun a b c h1 h2 => strLe_trans a.1 b.1 c.1 h1 h2)
      (fun a b => strLe_total a.1 b.1) l₁
  · exact List.sorted_mergeSort
      (fun a b c h1 h2 => strLe_trans a.1 b.1 c.1 h1 h2)
      (fun a b => strLe_total a.1 b.1) l₂

/-- C10: the sprite string is a deterministic function of the
name-to-content mapping of the .svg directory entries: however the
directory listing is ordered (a permutation of the entries) and however
the parallel reads complete (a permutation of the collected symbol
list), the final sprite is byte-identical, because file names are sorted
and the collected symbols are sorted again by file name. -/
theorem generateSvgSprite_deterministic
    (toSym : String → String → Option String)
    (entries₁ entries₂ collected₁ collected₂ : List (String × String))
    (hentries : entries₁.Perm entries₂)
    (hnd : (entries₁.map Prod.fst).Nodup)
    (hc₁ : collected₁.Perm (symbolsOf toSym entries₁))
    (hc₂ : collected₂.Perm (symbolsOf toSym entries₂)) :
    spriteOfSymbols collected₁ = spriteOfSymbols collected₂ := by
  have hsym : symbolsOf toSym entries₁ = symbolsOf toSym entries₂ :=
    symbolsOf_perm_eq toSym entries₁ entries₂ hentries hnd
  have hcc : collected₁.Perm collected₂ := hc₁.trans (hsym ▸ hc₂.symm)
  have hkeys : (collected₁.map Prod.fst).Nodup :=
    ((hc₁.map Prod.fst).nodup_iff).mpr
      ((symbolsOf_keys_sublist toSym entries₁).nodup
        (svgFileNames_nodup entries₁ hnd))
  have hempty : collected₁.isEmpty = collected₂.isEmpty := by
    have hlen := hcc.length_eq
    rcases collected₁ with _ | ⟨a, l⟩ <;> rcases collected₂ with _ | ⟨b, m⟩ <;> simp_all
  rw [spriteOfSymbols, spriteOfSymbols, hempty,
    sortSymbols_perm_eq collected₁ collected₂ hcc hkeys]

theorem generateSvgSprite_deterministic_witness :
    (([("b.svg", "<x>"), ("a.svg", "<y>"), ("c.txt", "t")] : List (String × String)).Perm
        [("a.svg", "<y>"), ("c.txt", "t"), ("b.svg", "<x>")]) ∧
    (([("b.svg", "<x>"), ("a.svg", "<y>"), ("c.txt", "t")].map Prod.fst).Nodup) ∧
    spriteOfSymbols
        (symbolsOf (fun n c => some (n ++ c))
          [("b.svg", "<x>"), ("a.svg", "<y>"), ("c.txt", "t")]) =
      spriteOfSymbols
        ((symbolsOf (fun n c => some (n ++ c))
          [("a.svg", "<y>"), ("c.txt", "t"), ("b.svg", "<x>")]).reverse) :=
  ⟨by decide, by decide,
    generateSvgSprite_deterministic (fun n c => some (n ++ c))
      [("b.svg", "<x>"), ("a.svg", "<y>"), ("c.txt", "t")]
      [("a.svg", "<y>"), ("c.txt", "t"), ("b.svg", "<x>")]
      _ _ (by decide) (by decide) (List.Perm.refl _) (List.reverse_perm _)⟩
